import Mathlib

/-!
Verification of the colour transformation core: a shallow embedding over ℝ of
the conversion functions in `colour/computation/transformations.py` and
`colour/models/rgb/transfer_functions/dcdm.py`, together with theorems
settling the specification claims about them.

Colour vectors are 3-component real triples; an illuminant chromaticity is a
real pair.  IEEE doubles are modelled as exact reals, and Python's total
division-by-zero behaviour is mirrored by Lean's convention `x / 0 = 0`.
-/

namespace Colour

noncomputable section

/-- Modelled from the spec: the CIE threshold constant of
`colour.computation.lightness` (module absent from the sources), "the cube of
6/29" per spec section 4.4. -/
def CIE_E : ℝ := (6 / 29) ^ (3 : ℕ)

/-- Modelled from the spec: the CIE linear-segment slope constant of
`colour.computation.lightness` (module absent from the sources), `24389/27`
per spec section 4.4. -/
def CIE_K : ℝ := 24389 / 27

/-- Embedding of `XYZ_to_xyY` from `transformations.py`: the all-zero vector
falls back to the illuminant chromaticity, otherwise each chromaticity
coordinate divides by the component sum.  The default-illuminant lookup is an
excluded dataset collaborator, so the illuminant is an explicit argument. -/
def XYZ_to_xyY (XYZ : ℝ × ℝ × ℝ) (illuminant : ℝ × ℝ) : ℝ × ℝ × ℝ :=
  let X := XYZ.1
  let Y := XYZ.2.1
  let Z := XYZ.2.2
  if X = 0 ∧ Y = 0 ∧ Z = 0 then
    (illuminant.1, illuminant.2, Y)
  else
    (X / (X + Y + Z), Y / (X + Y + Z), Y)

/-- Embedding of `xyY_to_XYZ` from `transformations.py`. -/
def xyY_to_XYZ (xyY : ℝ × ℝ × ℝ) : ℝ × ℝ × ℝ :=
  let x := xyY.1
  let y := xyY.2.1
  let Y := xyY.2.2
  if y = 0 then
    (0, 0, 0)
  else
    (x * Y / y, Y, (1 - x - y) * Y / y)

/-- Embedding of `xy_to_XYZ` from `transformations.py`. -/
def xy_to_XYZ (xy : ℝ × ℝ) : ℝ × ℝ × ℝ :=
  xyY_to_XYZ (xy.1, xy.2, 1)

/-- Embedding of `XYZ_to_UCS` from `transformations.py`. -/
def XYZ_to_UCS (XYZ : ℝ × ℝ × ℝ) : ℝ × ℝ × ℝ :=
  let X := XYZ.1
  let Y := XYZ.2.1
  let Z := XYZ.2.2
  (2 / 3 * X, Y, 1 / 2 * (-X + 3 * Y + Z))

/-- Embedding of `UCS_to_XYZ` from `transformations.py`. -/
def UCS_to_XYZ (UVW : ℝ × ℝ × ℝ) : ℝ × ℝ × ℝ :=
  let U := UVW.1
  let V := UVW.2.1
  let W := UVW.2.2
  (3 / 2 * U, V, 3 / 2 * U - 3 * V + 2 * W)

/-- Embedding of `XYZ_to_Luv` from `transformations.py`.  The piecewise
lightness and the `u`, `v` formulas are inlined exactly as in the source;
the reference tristimulus values come from `xy_to_XYZ` of the illuminant. -/
def XYZ_to_Luv (XYZ : ℝ × ℝ × ℝ) (illuminant : ℝ × ℝ) : ℝ × ℝ × ℝ :=
  let X := XYZ.1
  let Y := XYZ.2.1
  let Z := XYZ.2.2
  let r := xy_to_XYZ illuminant
  let Xr := r.1
  let Yr := r.2.1
  let Zr := r.2.2
  let yr := Y / Yr
  let L := if yr > CIE_E then 116 * yr ^ ((1 : ℝ) / 3) - 16 else CIE_K * yr
  let u := 13 * L *
    ((4 * X / (X + 15 * Y + 3 * Z)) - (4 * Xr / (Xr + 15 * Yr + 3 * Zr)))
  let v := 13 * L *
    ((9 * Y / (X + 15 * Y + 3 * Z)) - (9 * Yr / (Xr + 15 * Yr + 3 * Zr)))
  (L, u, v)

/-- Embedding of `Luv_to_XYZ` from `transformations.py`: the inverse
lightness branches on `CIE_E * CIE_K`, then `X` and `Z` are recovered from
the intermediates `a`, `b`, `c`, `d` exactly as in the source. -/
def Luv_to_XYZ (Luv : ℝ × ℝ × ℝ) (illuminant : ℝ × ℝ) : ℝ × ℝ × ℝ :=
  let L := Luv.1
  let u := Luv.2.1
  let v := Luv.2.2
  let r := xy_to_XYZ illuminant
  let Xr := r.1
  let Yr := r.2.1
  let Zr := r.2.2
  let Y := if L > CIE_E * CIE_K then ((L + 16) / 116) ^ (3 : ℕ) else L / CIE_K
  let a := 1 / 3 *
    ((52 * L / (u + 13 * L * (4 * Xr / (Xr + 15 * Yr + 3 * Zr)))) - 1)
  let b := -5 * Y
  let c := -(1 : ℝ) / 3
  let d := Y * (39 * L / (v + 13 * L * (9 * Yr / (Xr + 15 * Yr + 3 * Zr))) - 5)
  let X := (d - b) / (a - c)
  let Z := X * a + b
  (X, Y, Z)

/-- Embedding of `XYZ_to_Lab` from `transformations.py`: normalised ratios
against the reference white, per-channel piecewise cube-root-or-linear rule,
then `L = 116 fy - 16`, `a = 500 (fx - fy)`, `b = 200 (fy - fz)`. -/
def XYZ_to_Lab (XYZ : ℝ × ℝ × ℝ) (illuminant : ℝ × ℝ) : ℝ × ℝ × ℝ :=
  let X := XYZ.1
  let Y := XYZ.2.1
  let Z := XYZ.2.2
  let r := xy_to_XYZ illuminant
  let Xr := r.1
  let Yr := r.2.1
  let Zr := r.2.2
  let xr := X / Xr
  let yr := Y / Yr
  let zr := Z / Zr
  let fx := if xr > CIE_E then xr ^ ((1 : ℝ) / 3) else (CIE_K * xr + 16) / 116
  let fy := if yr > CIE_E then yr ^ ((1 : ℝ) / 3) else (CIE_K * yr + 16) / 116
  let fz := if zr > CIE_E then zr ^ ((1 : ℝ) / 3) else (CIE_K * zr + 16) / 116
  let L := 116 * fy - 16
  let a := 500 * (fx - fy)
  let b := 200 * (fy - fz)
  (L, a, b)

/-- Embedding of `Lab_to_XYZ` from `transformations.py`: the provisional
`fx`, `fy`, `fz` are recovered from `L`, `a`, `b`; the `x` and `z` channels
branch on the cube of the provisional value while the `y` channel branches on
`L` against `CIE_K * CIE_E`, exactly as in the source. -/
def Lab_to_XYZ (Lab : ℝ × ℝ × ℝ) (illuminant : ℝ × ℝ) : ℝ × ℝ × ℝ :=
  let L := Lab.1
  let a := Lab.2.1
  let b := Lab.2.2
  let r := xy_to_XYZ illuminant
  let Xr := r.1
  let Yr := r.2.1
  let Zr := r.2.2
  let fy := (L + 16) / 116
  let fx := a / 500 + fy
  let fz := fy - b / 200
  let xr := if fx ^ (3 : ℕ) > CIE_E then fx ^ (3 : ℕ)
    else (116 * fx - 16) / CIE_K
  let yr := if L > CIE_K * CIE_E then ((L + 16) / 116) ^ (3 : ℕ)
    else L / CIE_K
  let zr := if fz ^ (3 : ℕ) > CIE_E then fz ^ (3 : ℕ)
    else (116 * fz - 16) / CIE_K
  (xr * Xr, yr * Yr, zr * Zr)

/-- Two-argument arctangent in the convention of Python's `math.atan2`:
`atan2 y x` is the argument of the complex number `x + y i`, in `(-π, π]`. -/
def atan2 (y x : ℝ) : ℝ :=
  Complex.arg ⟨x, y⟩

/-- Embedding of `Luv_to_LCHuv` from `transformations.py`: hue from `atan2`
in degrees, wrapped by `+360` when negative; chroma as a root of a sum of
squares. -/
def Luv_to_LCHuv (Luv : ℝ × ℝ × ℝ) : ℝ × ℝ × ℝ :=
  let L := Luv.1
  let u := Luv.2.1
  let v := Luv.2.2
  let H0 := 180 * atan2 v u / Real.pi
  let H := if H0 < 0 then H0 + 360 else H0
  (L, Real.sqrt (u ^ (2 : ℕ) + v ^ (2 : ℕ)), H)

/-- Embedding of `LCHuv_to_Luv` from `transformations.py`; `math.radians`
is `· * π / 180`. -/
def LCHuv_to_Luv (LCHuv : ℝ × ℝ × ℝ) : ℝ × ℝ × ℝ :=
  let L := LCHuv.1
  let C := LCHuv.2.1
  let H := LCHuv.2.2
  (L, C * Real.cos (H * Real.pi / 180), C * Real.sin (H * Real.pi / 180))

/-- Embedding of `Lab_to_LCHab` from `transformations.py`. -/
def Lab_to_LCHab (Lab : ℝ × ℝ × ℝ) : ℝ × ℝ × ℝ :=
  let L := Lab.1
  let a := Lab.2.1
  let b := Lab.2.2
  let H0 := 180 * atan2 b a / Real.pi
  let H := if H0 < 0 then H0 + 360 else H0
  (L, Real.sqrt (a ^ (2 : ℕ) + b ^ (2 : ℕ)), H)

/-- Embedding of `LCHab_to_Lab` from `transformations.py`. -/
def LCHab_to_Lab (LCHab : ℝ × ℝ × ℝ) : ℝ × ℝ × ℝ :=
  let L := LCHab.1
  let C := LCHab.2.1
  let H := LCHab.2.2
  (L, C * Real.cos (H * Real.pi / 180), C * Real.sin (H * Real.pi / 180))

/-- Embedding of `oetf_DCDM` from `dcdm.py`: `(v / 52.37) ^ (1 / 2.6)`,
scaled by the maximum code value 4095 when integer output is requested. -/
def oetf_DCDM (XYZ : ℝ) (out_int : Bool) : ℝ :=
  let XYZ_p := (XYZ / 52.37) ^ ((1 : ℝ) / 2.6)
  if out_int then XYZ_p * 4095 else XYZ_p

/-- Embedding of `eotf_DCDM` from `dcdm.py`: integer code values are first
divided by 4095, then `52.37 * v ^ 2.6`. -/
def eotf_DCDM (XYZ_p : ℝ) (in_int : Bool) : ℝ :=
  let x := if in_int then XYZ_p / 4095 else XYZ_p
  52.37 * x ^ (2.6 : ℝ)

/-- The per-channel forward piecewise rule of `XYZ_to_Lab`: the inline
conditional expression the source repeats for `fx`, `fy`, `fz`, named for
reuse in proofs. -/
def lab_f (t : ℝ) : ℝ :=
  if t > CIE_E then t ^ ((1 : ℝ) / 3) else (CIE_K * t + 16) / 116

/-- The per-channel inverse piecewise rule of `Lab_to_XYZ` for the `x` and
`z` channels: branches on the cube of the provisional value. -/
def lab_f_inv (f : ℝ) : ℝ :=
  if f ^ (3 : ℕ) > CIE_E then f ^ (3 : ℕ) else (116 * f - 16) / CIE_K

/-- The forward lightness rule of `XYZ_to_Luv` (inline conditional of the
source, named for reuse in proofs). -/
def luv_L (yr : ℝ) : ℝ :=
  if yr > CIE_E then 116 * yr ^ ((1 : ℝ) / 3) - 16 else CIE_K * yr

/-- The inverse lightness rule of `Luv_to_XYZ` (inline conditional of the
source, named for reuse in proofs): branches on `CIE_E * CIE_K`. -/
def luv_L_inv (L : ℝ) : ℝ :=
  if L > CIE_E * CIE_K then ((L + 16) / 116) ^ (3 : ℕ) else L / CIE_K

/-- Conversion of a colour triple to a 3-vector, as `numpy.ravel` flattens a
3x1 matrix. -/
def triToVec (t : ℝ × ℝ × ℝ) : Fin 3 → ℝ :=
  ![t.1, t.2.1, t.2.2]

/-- Optional element-wise transfer-function application, as the source's
`map` over the ravelled RGB vector when a transfer function is supplied. -/
def applyTF : Option (ℝ → ℝ) → (Fin 3 → ℝ) → Fin 3 → ℝ
  | none, w => w
  | some f, w => fun i => f (w i)

/-- Embedding of `XYZ_to_RGB` from `transformations.py`.  The chromatic
adaptation engine (`colour.computation.chromatic_adaptation`, absent from the
sources) is modelled from the spec as an abstract parameter `adapt` taking
the two illuminant tristimulus vectors and the method tag, per spec section
4.2; the pipeline is: adaptation matrix, normalised primary matrix, optional
element-wise transfer function. -/
def XYZ_to_RGB (adapt : (Fin 3 → ℝ) → (Fin 3 → ℝ) → String →
      Matrix (Fin 3) (Fin 3) ℝ)
    (XYZ : Fin 3 → ℝ) (illuminant_XYZ illuminant_RGB : ℝ × ℝ)
    (chromatic_adaptation_method : String)
    (from_XYZ : Matrix (Fin 3) (Fin 3) ℝ)
    (transfer_function : Option (ℝ → ℝ)) : Fin 3 → ℝ :=
  let cat := adapt (triToVec (xy_to_XYZ illuminant_XYZ))
    (triToVec (xy_to_XYZ illuminant_RGB)) chromatic_adaptation_method
  let adaptedXYZ := cat.mulVec XYZ
  let RGB := from_XYZ.mulVec adaptedXYZ
  applyTF transfer_function RGB

/-- Embedding of `RGB_to_XYZ` from `transformations.py`: optional
element-wise inverse transfer function first, then the `to_XYZ` matrix, then
adaptation in the opposite illuminant direction. -/
def RGB_to_XYZ (adapt : (Fin 3 → ℝ) → (Fin 3 → ℝ) → String →
      Matrix (Fin 3) (Fin 3) ℝ)
    (RGB : Fin 3 → ℝ) (illuminant_RGB illuminant_XYZ : ℝ × ℝ)
    (chromatic_adaptation_method : String)
    (to_XYZ : Matrix (Fin 3) (Fin 3) ℝ)
    (inverse_transfer_function : Option (ℝ → ℝ)) : Fin 3 → ℝ :=
  let RGB_lin := applyTF inverse_transfer_function RGB
  let XYZ := to_XYZ.mulVec RGB_lin
  let cat := adapt (triToVec (xy_to_XYZ illuminant_RGB))
    (triToVec (xy_to_XYZ illuminant_XYZ)) chromatic_adaptation_method
  cat.mulVec XYZ

end

/-- C2: degenerate inputs are defined behaviour: `XYZ_to_xyY` maps the
all-zero vector to `(illuminant.x, illuminant.y, 0)` and any other vector to
`(X/(X+Y+Z), Y/(X+Y+Z), Y)`; `xyY_to_XYZ` maps any vector with `y = 0` to the
zero vector and any other to `(xY/y, Y, (1-x-y)Y/y)`.  Both embeddings are
total functions, so no input raises. -/
theorem chromaticity_degenerate_handling :
    (∀ ill : ℝ × ℝ, XYZ_to_xyY (0, 0, 0) ill = (ill.1, ill.2, 0)) ∧
    (∀ (XYZ : ℝ × ℝ × ℝ) (ill : ℝ × ℝ),
      ¬(XYZ.1 = 0 ∧ XYZ.2.1 = 0 ∧ XYZ.2.2 = 0) →
      XYZ_to_xyY XYZ ill =
        (XYZ.1 / (XYZ.1 + XYZ.2.1 + XYZ.2.2),
         XYZ.2.1 / (XYZ.1 + XYZ.2.1 + XYZ.2.2), XYZ.2.1)) ∧
    (∀ xyY : ℝ × ℝ × ℝ, xyY.2.1 = 0 → xyY_to_XYZ xyY = (0, 0, 0)) ∧
    (∀ xyY : ℝ × ℝ × ℝ, xyY.2.1 ≠ 0 →
      xyY_to_XYZ xyY =
        (xyY.1 * xyY.2.2 / xyY.2.1, xyY.2.2,
         (1 - xyY.1 - xyY.2.1) * xyY.2.2 / xyY.2.1)) := by
  refine ⟨fun ill => ?_, fun XYZ ill h => ?_, fun xyY h => ?_, fun xyY h => ?_⟩
  · simp [XYZ_to_xyY]
  · simp only [XYZ_to_xyY, if_neg h]
  · simp only [xyY_to_XYZ, if_pos h]
  · simp only [xyY_to_XYZ, if_neg h]

/-- Witness for C2: the theorem applied at concrete inputs, including the
degenerate ones. -/
theorem chromaticity_degenerate_handling_witness :
    XYZ_to_xyY (0, 0, 0) (0.25, 0.25) = (0.25, 0.25, 0) ∧
    XYZ_to_xyY (1, 2, 3) (0.25, 0.25) = (1 / 6, 2 / 6, 2) ∧
    xyY_to_XYZ (0.4, 0, 7) = (0, 0, 0) ∧
    xyY_to_XYZ (0.25, 0.25, 2) = (2, 2, 4) := by
  refine ⟨chromaticity_degenerate_handling.1 (0.25, 0.25), ?_, ?_, ?_⟩
  · have h := chromaticity_degenerate_handling.2.1 (1, 2, 3) (0.25, 0.25)
      (by norm_num)
    rw [h]
    norm_num
  · exact chromaticity_degenerate_handling.2.2.1 (0.4, 0, 7) rfl
  · have h := chromaticity_degenerate_handling.2.2.2 (0.25, 0.25, 2)
      (by norm_num)
    rw [h]
    norm_num

/-- C1 counterexample: the xyY/XYZ round-trip fails on a vector with
`X + Y + Z ≠ 0` but `Y = 0`: the forward image has `y = 0`, so the inverse
collapses it to the zero vector. -/
theorem xyY_round_trip_fails_without_Y_ne_zero :
    xyY_to_XYZ (XYZ_to_xyY (1, 0, 0) (0.25, 0.25)) ≠ (1, 0, 0) := by
  norm_num [XYZ_to_xyY, xyY_to_XYZ, Prod.ext_iff]

/-- C1 (amended): the xyY/XYZ conversions round-trip exactly in both
directions once the luminance component is also nonzero: for XYZ with
`X + Y + Z ≠ 0` and `Y ≠ 0`, and for xyY with `y ≠ 0` and `Y ≠ 0`, under any
illuminant. -/
theorem xyY_XYZ_round_trips_of_Y_ne_zero (XYZ xyY : ℝ × ℝ × ℝ)
    (ill ill' : ℝ × ℝ)
    (hsum : XYZ.1 + XYZ.2.1 + XYZ.2.2 ≠ 0) (hY : XYZ.2.1 ≠ 0)
    (hy : xyY.2.1 ≠ 0) (hY' : xyY.2.2 ≠ 0) :
    xyY_to_XYZ (XYZ_to_xyY XYZ ill) = XYZ ∧
    XYZ_to_xyY (xyY_to_XYZ xyY) ill' = xyY := by
  obtain ⟨X, Y, Z⟩ := XYZ
  obtain ⟨x, y, Yl⟩ := xyY
  simp only at hsum hY hy hY'
  constructor
  · have hnz : ¬(X = 0 ∧ Y = 0 ∧ Z = 0) := fun h => hY h.2.1
    simp only [XYZ_to_xyY, if_neg hnz]
    have hYdiv : Y / (X + Y + Z) ≠ 0 := div_ne_zero hY hsum
    simp only [xyY_to_XYZ, if_neg hYdiv]
    refine Prod.ext ?_ (Prod.ext ?_ ?_) <;> field_simp
    ring
  · simp only [xyY_to_XYZ, if_neg hy]
    have h1 : x * Yl / y + Yl + (1 - x - y) * Yl / y = Yl / y := by
      field_simp
      ring
    have hnz : ¬(x * Yl / y = 0 ∧ Yl = 0 ∧ (1 - x - y) * Yl / y = 0) :=
      fun h => hY' h.2.1
    simp only [XYZ_to_xyY, if_neg hnz, h1]
    have hYy : Yl / y ≠ 0 := div_ne_zero hY' hy
    refine Prod.ext ?_ (Prod.ext ?_ ?_) <;> field_simp

/-- Witness for C1's amended theorem at a concrete nondegenerate input. -/
theorem xyY_XYZ_round_trips_witness :
    ((2 : ℝ) + 1 + 1 ≠ 0 ∧ (1 : ℝ) ≠ 0 ∧ (0.25 : ℝ) ≠ 0 ∧ (2 : ℝ) ≠ 0) ∧
    xyY_to_XYZ (XYZ_to_xyY (2, 1, 1) (0.25, 0.25)) = (2, 1, 1) ∧
    XYZ_to_xyY (xyY_to_XYZ (0.25, 0.25, 2)) (0.3, 0.3) = (0.25, 0.25, 2) := by
  refine ⟨by norm_num, ?_⟩
  exact xyY_XYZ_round_trips_of_Y_ne_zero (2, 1, 1) (0.25, 0.25, 2)
    (0.25, 0.25) (0.3, 0.3) (by norm_num) (by norm_num) (by norm_num)
    (by norm_num)

/-- C9: `XYZ_to_UCS` and `UCS_to_XYZ` are exact two-sided inverses on all of
ℝ³, with no precondition and no tolerance: the pair is a fixed invertible
linear relation. -/
theorem UCS_XYZ_two_sided_inverse (XYZ UVW : ℝ × ℝ × ℝ) :
    UCS_to_XYZ (XYZ_to_UCS XYZ) = XYZ ∧ XYZ_to_UCS (UCS_to_XYZ UVW) = UVW := by
  obtain ⟨X, Y, Z⟩ := XYZ
  obtain ⟨U, V, W⟩ := UVW
  constructor <;>
    · simp only [XYZ_to_UCS, UCS_to_XYZ]
      refine Prod.ext ?_ (Prod.ext ?_ ?_) <;> norm_num <;> ring

/-- The wrapped hue produced by the polar conversions lies in `[0, 360)`:
the raw degree value of `atan2` lies in `(-180, 180]`, and adding `360` to a
negative value lands in `(180, 360)`. -/
theorem hue_mem_Ico (u v : ℝ) :
    (if 180 * atan2 v u / Real.pi < 0 then 180 * atan2 v u / Real.pi + 360
     else 180 * atan2 v u / Real.pi) ∈ Set.Ico (0 : ℝ) 360 := by
  have hpi : (0 : ℝ) < Real.pi := Real.pi_pos
  have h1 : atan2 v u ≤ Real.pi := Complex.arg_le_pi _
  have h2 : -Real.pi < atan2 v u := Complex.neg_pi_lt_arg _
  have hub : 180 * atan2 v u / Real.pi ≤ 180 := by
    rw [div_le_iff₀ hpi]
    nlinarith
  have hlb : -180 < 180 * atan2 v u / Real.pi := by
    rw [lt_div_iff₀ hpi]
    nlinarith
  by_cases h : 180 * atan2 v u / Real.pi < 0
  · rw [if_pos h]
    constructor <;> nlinarith
  · rw [if_neg h]
    push_neg at h
    exact ⟨h, by nlinarith⟩

/-- C7: the polar conversions pass `L` through unchanged, return the chroma
`sqrt (axis1 ^ 2 + axis2 ^ 2)` and the hue `atan2 axis2 axis1` in degrees
wrapped by `+360` when negative, so the hue always lies in `[0, 360)`; the
inverses return `C * cos H` and `C * sin H` with `H` converted from degrees
to radians. -/
theorem polar_LCH_conversions (Luv Lab LCH : ℝ × ℝ × ℝ) :
    (Luv_to_LCHuv Luv).1 = Luv.1 ∧
    (Luv_to_LCHuv Luv).2.1 =
      Real.sqrt (Luv.2.1 ^ (2 : ℕ) + Luv.2.2 ^ (2 : ℕ)) ∧
    (Luv_to_LCHuv Luv).2.2 =
      (if 180 * atan2 Luv.2.2 Luv.2.1 / Real.pi < 0 then
        180 * atan2 Luv.2.2 Luv.2.1 / Real.pi + 360
      else 180 * atan2 Luv.2.2 Luv.2.1 / Real.pi) ∧
    (Luv_to_LCHuv Luv).2.2 ∈ Set.Ico (0 : ℝ) 360 ∧
    (Lab_to_LCHab Lab).1 = Lab.1 ∧
    (Lab_to_LCHab Lab).2.1 =
      Real.sqrt (Lab.2.1 ^ (2 : ℕ) + Lab.2.2 ^ (2 : ℕ)) ∧
    (Lab_to_LCHab Lab).2.2 =
      (if 180 * atan2 Lab.2.2 Lab.2.1 / Real.pi < 0 then
        180 * atan2 Lab.2.2 Lab.2.1 / Real.pi + 360
      else 180 * atan2 Lab.2.2 Lab.2.1 / Real.pi) ∧
    (Lab_to_LCHab Lab).2.2 ∈ Set.Ico (0 : ℝ) 360 ∧
    LCHuv_to_Luv LCH =
      (LCH.1, LCH.2.1 * Real.cos (LCH.2.2 * Real.pi / 180),
       LCH.2.1 * Real.sin (LCH.2.2 * Real.pi / 180)) ∧
    LCHab_to_Lab LCH =
      (LCH.1, LCH.2.1 * Real.cos (LCH.2.2 * Real.pi / 180),
       LCH.2.1 * Real.sin (LCH.2.2 * Real.pi / 180)) :=
  ⟨rfl, rfl, rfl, hue_mem_Ico Luv.2.1 Luv.2.2, rfl, rfl, rfl,
   hue_mem_Ico Lab.2.1 Lab.2.2, rfl, rfl⟩

/-- C10: every LCH output lies in the canonical polar domain: the chroma
component of `Luv_to_LCHuv` and `Lab_to_LCHab` is a real square root and so
nonnegative, and the hue component lies in `[0, 360)`. -/
theorem LCH_canonical_domain (Luv Lab : ℝ × ℝ × ℝ) :
    0 ≤ (Luv_to_LCHuv Luv).2.1 ∧
    (Luv_to_LCHuv Luv).2.2 ∈ Set.Ico (0 : ℝ) 360 ∧
    0 ≤ (Lab_to_LCHab Lab).2.1 ∧
    (Lab_to_LCHab Lab).2.2 ∈ Set.Ico (0 : ℝ) 360 :=
  ⟨Real.sqrt_nonneg _, hue_mem_Ico Luv.2.1 Luv.2.2,
   Real.sqrt_nonneg _, hue_mem_Ico Lab.2.1 Lab.2.2⟩

/-- C8: the DCDM codec round-trips exactly: for every nonnegative `v` (in
particular every `v` in `[0, 1]`), `eotf_DCDM (oetf_DCDM v) = v` both in
float mode and in integer-code-value mode; no clamping occurs, as the
round trip holds even above the legal signal range. -/
theorem dcdm_codec_round_trip (v : ℝ) (h0 : 0 ≤ v) :
    eotf_DCDM (oetf_DCDM v false) false = v ∧
    eotf_DCDM (oetf_DCDM v true) true = v := by
  have hb : (0 : ℝ) ≤ v / 52.37 := by positivity
  have key : ((v / 52.37) ^ ((1 : ℝ) / 2.6)) ^ (2.6 : ℝ) = v / 52.37 := by
    rw [← Real.rpow_mul hb]
    norm_num
  constructor
  · show 52.37 * ((v / 52.37) ^ ((1 : ℝ) / 2.6)) ^ (2.6 : ℝ) = v
    rw [key]
    field_simp
  · show 52.37 * ((v / 52.37) ^ ((1 : ℝ) / 2.6) * 4095 / 4095) ^ (2.6 : ℝ) = v
    rw [mul_div_cancel_right₀ _ (by norm_num : (4095 : ℝ) ≠ 0), key]
    field_simp

/-- Witness for C8 at `v = 1/2`. -/
theorem dcdm_codec_round_trip_witness :
    (0 : ℝ) ≤ 1 / 2 ∧
    (eotf_DCDM (oetf_DCDM (1 / 2) false) false = 1 / 2 ∧
     eotf_DCDM (oetf_DCDM (1 / 2) true) true = 1 / 2) :=
  ⟨by norm_num, dcdm_codec_round_trip (1 / 2) (by norm_num)⟩

/-- C3: `RGB_to_XYZ` inverts `XYZ_to_RGB` exactly, for every input vector,
illuminant pair, method and primary matrix, provided `to_XYZ` is a left
inverse of `from_XYZ`, the optional inverse transfer function undoes the
optional transfer function element-wise, and the adaptation engine returns
mutually inverse matrices for swapped illuminant arguments. -/
theorem RGB_XYZ_round_trip
    (adapt : (Fin 3 → ℝ) → (Fin 3 → ℝ) → String → Matrix (Fin 3) (Fin 3) ℝ)
    (method : String) (from_XYZ to_XYZ : Matrix (Fin 3) (Fin 3) ℝ)
    (tf tf_inv : Option (ℝ → ℝ)) (ill_XYZ ill_RGB : ℝ × ℝ) (V : Fin 3 → ℝ)
    (h_adapt : ∀ a b : Fin 3 → ℝ, adapt b a method * adapt a b method = 1)
    (h_npm : to_XYZ * from_XYZ = 1)
    (h_tf : ∀ w : Fin 3 → ℝ, applyTF tf_inv (applyTF tf w) = w) :
    RGB_to_XYZ adapt (XYZ_to_RGB adapt V ill_XYZ ill_RGB method from_XYZ tf)
      ill_RGB ill_XYZ method to_XYZ tf_inv = V := by
  show (adapt (triToVec (xy_to_XYZ ill_RGB)) (triToVec (xy_to_XYZ ill_XYZ))
      method).mulVec
    (to_XYZ.mulVec (applyTF tf_inv (applyTF tf (from_XYZ.mulVec
      ((adapt (triToVec (xy_to_XYZ ill_XYZ)) (triToVec (xy_to_XYZ ill_RGB))
        method).mulVec V))))) = V
  rw [h_tf, Matrix.mulVec_mulVec, Matrix.mulVec_mulVec, Matrix.mulVec_mulVec,
    mul_assoc (adapt (triToVec (xy_to_XYZ ill_RGB))
      (triToVec (xy_to_XYZ ill_XYZ)) method) to_XYZ from_XYZ,
    h_npm, mul_one, h_adapt, Matrix.one_mulVec]

/-- Witness for C3 with identity matrices, no transfer function and a
concrete vector. -/
theorem RGB_XYZ_round_trip_witness :
    (∀ a b : Fin 3 → ℝ,
      (fun (_ _ : Fin 3 → ℝ) (_ : String) =>
        (1 : Matrix (Fin 3) (Fin 3) ℝ)) b a "Bradford" *
      (fun (_ _ : Fin 3 → ℝ) (_ : String) =>
        (1 : Matrix (Fin 3) (Fin 3) ℝ)) a b "Bradford" = 1) ∧
    ((1 : Matrix (Fin 3) (Fin 3) ℝ) * 1 = 1) ∧
    RGB_to_XYZ (fun _ _ _ => 1)
      (XYZ_to_RGB (fun _ _ _ => 1) ![1, 2, 3] (0.3457, 0.3585)
        (0.3127, 0.329) "Bradford" 1 none)
      (0.3127, 0.329) (0.3457, 0.3585) "Bradford" 1 none = ![1, 2, 3] :=
  ⟨fun _ _ => one_mul 1, one_mul 1,
   RGB_XYZ_round_trip (fun _ _ _ => 1) "Bradford" 1 1 none none
     (0.3457, 0.3585) (0.3127, 0.329) ![1, 2, 3]
     (fun _ _ => one_mul 1) (one_mul 1) (fun _ => rfl)⟩

/-- The CIE threshold constant is positive. -/
theorem CIE_E_pos : 0 < CIE_E := by
  norm_num [CIE_E]

/-- The CIE slope constant is positive. -/
theorem CIE_K_pos : 0 < CIE_K := by
  norm_num [CIE_K]

/-- The product of the two CIE constants is 8. -/
theorem CIE_E_mul_K : CIE_E * CIE_K = 8 := by
  norm_num [CIE_E, CIE_K]

/-- Cubing is monotone on all of ℝ. -/
theorem cube_le_cube_iff (a b : ℝ) : a ^ (3 : ℕ) ≤ b ^ (3 : ℕ) ↔ a ≤ b :=
  (Odd.strictMono_pow (R := ℝ) (by decide)).le_iff_le

/-- Cubing a real cube root recovers a nonnegative argument. -/
theorem rpow_third_cube {x : ℝ} (hx : 0 ≤ x) :
    (x ^ ((1 : ℝ) / 3)) ^ (3 : ℕ) = x := by
  rw [← Real.rpow_natCast (x ^ ((1 : ℝ) / 3)) 3, ← Real.rpow_mul hx]
  norm_num

/-- The real cube root of a cube recovers a nonnegative argument. -/
theorem cube_rpow_third {x : ℝ} (hx : 0 ≤ x) :
    (x ^ (3 : ℕ)) ^ ((1 : ℝ) / 3) = x := by
  rw [← Real.rpow_natCast x 3, ← Real.rpow_mul hx]
  norm_num

/-- The cube root of the CIE threshold is `6/29`. -/
theorem CIE_E_rpow_third : CIE_E ^ ((1 : ℝ) / 3) = 6 / 29 :=
  cube_rpow_third (by norm_num)

/-- The inverse per-channel Lab rule undoes the forward rule, on all of ℝ. -/
theorem lab_f_inv_lab_f (t : ℝ) : lab_f_inv (lab_f t) = t := by
  unfold lab_f lab_f_inv
  by_cases h : t > CIE_E
  · rw [if_pos h, rpow_third_cube (le_of_lt (lt_trans CIE_E_pos h)), if_pos h]
  · rw [if_neg h]
    push_neg at h
    have hE : CIE_E = (216 : ℝ) / 24389 := by norm_num [CIE_E]
    have hK : CIE_K = (24389 : ℝ) / 27 := by norm_num [CIE_K]
    have hfle : (CIE_K * t + 16) / 116 ≤ 6 / 29 := by
      rw [hK]
      rw [hE] at h
      nlinarith
    have hcube : ¬((CIE_K * t + 16) / 116) ^ (3 : ℕ) > CIE_E := by
      refine not_lt.mpr ?_
      show _ ≤ ((6 : ℝ) / 29) ^ (3 : ℕ)
      exact (cube_le_cube_iff _ _).mpr hfle
    rw [if_neg hcube]
    have hK0 : CIE_K ≠ 0 := ne_of_gt CIE_K_pos
    field_simp

/-- The forward per-channel Lab rule undoes the inverse rule, on all of ℝ. -/
theorem lab_f_lab_f_inv (f : ℝ) : lab_f (lab_f_inv f) = f := by
  unfold lab_f lab_f_inv
  by_cases h : f ^ (3 : ℕ) > CIE_E
  · rw [if_pos h, if_pos h]
    have hf : 0 ≤ f := by
      by_contra hneg
      push_neg at hneg
      have : f ^ (3 : ℕ) < 0 := Odd.pow_neg (by decide) hneg
      linarith [CIE_E_pos]
    exact cube_rpow_third hf
  · rw [if_neg h]
    push_neg at h
    have hfle : f ≤ 6 / 29 := by
      refine (cube_le_cube_iff f (6 / 29)).mp ?_
      calc f ^ (3 : ℕ) ≤ CIE_E := h
        _ = ((6 : ℝ) / 29) ^ (3 : ℕ) := rfl
    have hE : CIE_E = (216 : ℝ) / 24389 := by norm_num [CIE_E]
    have hK : CIE_K = (24389 : ℝ) / 27 := by norm_num [CIE_K]
    have ht : ¬(116 * f - 16) / CIE_K > CIE_E := by
      refine not_lt.mpr ?_
      rw [hE, hK]
      rw [div_le_div_iff₀ (by norm_num) (by norm_num)]
      nlinarith
    rw [if_neg ht]
    have hK0 : CIE_K ≠ 0 := ne_of_gt CIE_K_pos
    field_simp

/-- The Luv forward lightness is an affine image of the per-channel rule. -/
theorem luv_L_eq_lab_f (yr : ℝ) : luv_L yr = 116 * lab_f yr - 16 := by
  unfold luv_L lab_f
  by_cases h : yr > CIE_E
  · rw [if_pos h, if_pos h]
  · rw [if_neg h, if_neg h]
    field_simp

/-- Above the threshold, the forward lightness exceeds `CIE_E * CIE_K = 8`. -/
theorem luv_L_gt_8 {yr : ℝ} (h : yr > CIE_E) : luv_L yr > 8 := by
  unfold luv_L
  rw [if_pos h]
  have hroot : (6 : ℝ) / 29 < yr ^ ((1 : ℝ) / 3) := by
    have := Real.rpow_lt_rpow (le_of_lt CIE_E_pos) h
      (by norm_num : (0 : ℝ) < 1 / 3)
    rwa [CIE_E_rpow_third] at this
  nlinarith

/-- The inverse lightness rule of `Luv_to_XYZ` undoes the forward rule on
all of ℝ; the `CIE_E * CIE_K` branch threshold matches the `CIE_E` forward
threshold exactly. -/
theorem luv_L_inv_luv_L (yr : ℝ) : luv_L_inv (luv_L yr) = yr := by
  by_cases h : yr > CIE_E
  · have h8 := luv_L_gt_8 h
    unfold luv_L at h8 ⊢
    rw [if_pos h] at h8 ⊢
    unfold luv_L_inv
    rw [if_pos (by rw [CIE_E_mul_K]; exact h8)]
    have harg : (116 * yr ^ ((1 : ℝ) / 3) - 16 + 16) / 116 = yr ^ ((1 : ℝ) / 3) := by
      ring
    rw [harg, rpow_third_cube (le_of_lt (lt_trans CIE_E_pos h))]
  · push_neg at h
    unfold luv_L luv_L_inv
    rw [if_neg (not_lt.mpr h)]
    have hcond : ¬CIE_K * yr > CIE_E * CIE_K := by
      refine not_lt.mpr ?_
      have := CIE_K_pos
      nlinarith
    rw [if_neg hcond]
    have hK0 : CIE_K ≠ 0 := ne_of_gt CIE_K_pos
    field_simp

/-- The forward lightness rule undoes the inverse rule on all of ℝ. -/
theorem luv_L_luv_L_inv (L : ℝ) : luv_L (luv_L_inv L) = L := by
  unfold luv_L luv_L_inv
  by_cases h : L > CIE_E * CIE_K
  · rw [if_pos h]
    have h8 : (8 : ℝ) < L := by rwa [CIE_E_mul_K] at h
    have hf : (6 : ℝ) / 29 < (L + 16) / 116 := by nlinarith
    have hcond : ((L + 16) / 116) ^ (3 : ℕ) > CIE_E := by
      show ((6 : ℝ) / 29) ^ (3 : ℕ) < _
      exact pow_lt_pow_left₀ hf (by norm_num) (by norm_num)
    rw [if_pos hcond,
      cube_rpow_third (le_of_lt (lt_trans (by norm_num) hf))]
    ring
  · rw [if_neg h]
    push_neg at h
    rw [CIE_E_mul_K] at h
    have hcond : ¬L / CIE_K > CIE_E := by
      refine not_lt.mpr ?_
      rw [div_le_iff₀ CIE_K_pos]
      calc L ≤ 8 := h
        _ = CIE_E * CIE_K := CIE_E_mul_K.symm
    rw [if_neg hcond]
    have hK0 : CIE_K ≠ 0 := ne_of_gt CIE_K_pos
    field_simp

/-- The forward lightness is positive on positive ratios. -/
theorem luv_L_pos {yr : ℝ} (h : 0 < yr) : 0 < luv_L yr := by
  by_cases hE : yr > CIE_E
  · have := luv_L_gt_8 hE
    linarith
  · unfold luv_L
    rw [if_neg hE]
    exact mul_pos CIE_K_pos h

/-- The second component of a reference white obtained from `xy_to_XYZ` is 1
whenever it is nonzero (the degenerate `y = 0` illuminant is the only way to
get anything else). -/
theorem xy_to_XYZ_snd (ill : ℝ × ℝ) (h : (xy_to_XYZ ill).2.1 ≠ 0) :
    (xy_to_XYZ ill).2.1 = 1 := by
  unfold xy_to_XYZ xyY_to_XYZ at *
  by_cases hy : ill.2 = 0
  · rw [if_pos hy] at h
    exact absurd rfl h
  · rw [if_neg hy]

/-- The inverse lightness never vanishes on nonzero `L`. -/
theorem luv_L_inv_ne_zero {L : ℝ} (hL : L ≠ 0) : luv_L_inv L ≠ 0 := by
  unfold luv_L_inv
  by_cases h : L > CIE_E * CIE_K
  · rw [if_pos h]
    have h8 : (8 : ℝ) < L := by rwa [CIE_E_mul_K] at h
    have hpos : 0 < (L + 16) / 116 := div_pos (by linarith) (by norm_num)
    exact ne_of_gt (pow_pos hpos 3)
  · rw [if_neg h]
    exact div_ne_zero hL (ne_of_gt CIE_K_pos)

/-- The `y`-channel conditional of `Lab_to_XYZ` (threshold written
`CIE_K * CIE_E` in the source) coincides with the inverse lightness rule of
`Luv_to_XYZ` (threshold written `CIE_E * CIE_K`). -/
theorem lab_yr_eq (L : ℝ) :
    (if L > CIE_K * CIE_E then ((L + 16) / 116) ^ (3 : ℕ) else L / CIE_K) =
      luv_L_inv L := by
  rw [mul_comm CIE_K CIE_E]
  rfl

/-- Evaluation of `XYZ_to_Luv` on an explicit triple, naming the lightness
intermediate. -/
theorem XYZ_to_Luv_eval (X Y Z : ℝ) (ill : ℝ × ℝ) (L : ℝ)
    (hL : L = luv_L (Y / (xy_to_XYZ ill).2.1)) :
    XYZ_to_Luv (X, Y, Z) ill =
      (L,
       13 * L * ((4 * X / (X + 15 * Y + 3 * Z)) -
         (4 * (xy_to_XYZ ill).1 / ((xy_to_XYZ ill).1 +
           15 * (xy_to_XYZ ill).2.1 + 3 * (xy_to_XYZ ill).2.2))),
       13 * L * ((9 * Y / (X + 15 * Y + 3 * Z)) -
         (9 * (xy_to_XYZ ill).2.1 / ((xy_to_XYZ ill).1 +
           15 * (xy_to_XYZ ill).2.1 + 3 * (xy_to_XYZ ill).2.2)))) := by
  subst hL
  rfl

/-- Evaluation of `Luv_to_XYZ` on an explicit triple, naming the
intermediates `Y`, `a`, `d` of the source. -/
theorem Luv_to_XYZ_eval (L u v : ℝ) (ill : ℝ × ℝ) (Y a d : ℝ)
    (hY : Y = luv_L_inv L)
    (ha : a = 1 / 3 *
      ((52 * L / (u + 13 * L * (4 * (xy_to_XYZ ill).1 /
        ((xy_to_XYZ ill).1 + 15 * (xy_to_XYZ ill).2.1 +
         3 * (xy_to_XYZ ill).2.2)))) - 1))
    (hd : d = Y * (39 * L / (v + 13 * L * (9 * (xy_to_XYZ ill).2.1 /
        ((xy_to_XYZ ill).1 + 15 * (xy_to_XYZ ill).2.1 +
         3 * (xy_to_XYZ ill).2.2))) - 5)) :
    Luv_to_XYZ (L, u, v) ill =
      ((d - (-5 * Y)) / (a - (-(1 : ℝ) / 3)), Y,
       (d - (-5 * Y)) / (a - (-(1 : ℝ) / 3)) * a + (-5 * Y)) := by
  subst hY
  subst ha
  subst hd
  rfl

/-- Evaluation of `XYZ_to_Lab` on an explicit triple, naming the per-channel
intermediates. -/
theorem XYZ_to_Lab_eval (X Y Z : ℝ) (ill : ℝ × ℝ) (fx fy fz : ℝ)
    (hfx : fx = lab_f (X / (xy_to_XYZ ill).1))
    (hfy : fy = lab_f (Y / (xy_to_XYZ ill).2.1))
    (hfz : fz = lab_f (Z / (xy_to_XYZ ill).2.2)) :
    XYZ_to_Lab (X, Y, Z) ill =
      (116 * fy - 16, 500 * (fx - fy), 200 * (fy - fz)) := by
  subst hfx
  subst hfy
  subst hfz
  rfl

/-- Evaluation of `Lab_to_XYZ` on an explicit triple, naming the recovered
`fy`, `fx`, `fz` intermediates. -/
theorem Lab_to_XYZ_eval (L a b : ℝ) (ill : ℝ × ℝ) (fy fx fz : ℝ)
    (hfy : fy = (L + 16) / 116) (hfx : fx = a / 500 + fy)
    (hfz : fz = fy - b / 200) :
    Lab_to_XYZ (L, a, b) ill =
      (lab_f_inv fx * (xy_to_XYZ ill).1,
       (if L > CIE_K * CIE_E then ((L + 16) / 116) ^ (3 : ℕ) else L / CIE_K) *
         (xy_to_XYZ ill).2.1,
       lab_f_inv fz * (xy_to_XYZ ill).2.2) := by
  subst hfy
  subst hfx
  subst hfz
  rfl

/-- C4: the Luv lightness branching is asymmetric exactly as the reference
formulation requires: `CIE_E` is the cube of `6/29` and `CIE_K` is
`24389/27`; the forward lightness of `XYZ_to_Luv` is `116 yr^(1/3) - 16`
above the threshold `CIE_E` and `CIE_K * yr` otherwise, while the inverse
lightness of `Luv_to_XYZ` is `((L+16)/116)^3` above the product
`CIE_E * CIE_K` and `L / CIE_K` otherwise. -/
theorem Luv_lightness_branch_asymmetry (XYZ Luv : ℝ × ℝ × ℝ) (ill : ℝ × ℝ) :
    CIE_E = (6 / 29) ^ (3 : ℕ) ∧ CIE_K = 24389 / 27 ∧
    (XYZ_to_Luv XYZ ill).1 =
      (if XYZ.2.1 / (xy_to_XYZ ill).2.1 > CIE_E then
        116 * (XYZ.2.1 / (xy_to_XYZ ill).2.1) ^ ((1 : ℝ) / 3) - 16
      else CIE_K * (XYZ.2.1 / (xy_to_XYZ ill).2.1)) ∧
    (Luv_to_XYZ Luv ill).2.1 =
      (if Luv.1 > CIE_E * CIE_K then ((Luv.1 + 16) / 116) ^ (3 : ℕ)
       else Luv.1 / CIE_K) :=
  ⟨rfl, rfl, rfl, rfl⟩

/-- C5: in `Lab_to_XYZ` the per-channel inversion branches on the cube of
the provisional `f` value for the `x` and `z` channels, while the `y`
channel branches on `L` directly against `CIE_K * CIE_E`, with
`fy = (L+16)/116`, `fx = a/500 + fy`, `fz = fy - b/200`. -/
theorem Lab_to_XYZ_branch_structure (Lab : ℝ × ℝ × ℝ) (ill : ℝ × ℝ) :
    Lab_to_XYZ Lab ill =
      ((if (Lab.2.1 / 500 + (Lab.1 + 16) / 116) ^ (3 : ℕ) > CIE_E then
          (Lab.2.1 / 500 + (Lab.1 + 16) / 116) ^ (3 : ℕ)
        else (116 * (Lab.2.1 / 500 + (Lab.1 + 16) / 116) - 16) / CIE_K) *
        (xy_to_XYZ ill).1,
       (if Lab.1 > CIE_K * CIE_E then ((Lab.1 + 16) / 116) ^ (3 : ℕ)
        else Lab.1 / CIE_K) * (xy_to_XYZ ill).2.1,
       (if ((Lab.1 + 16) / 116 - Lab.2.2 / 200) ^ (3 : ℕ) > CIE_E then
          ((Lab.1 + 16) / 116 - Lab.2.2 / 200) ^ (3 : ℕ)
        else (116 * ((Lab.1 + 16) / 116 - Lab.2.2 / 200) - 16) / CIE_K) *
        (xy_to_XYZ ill).2.2) :=
  rfl

/-- Algebraic core of the forward-then-inverse Luv round trip: from the
forward `u`, `v` formulas, the inverse intermediates recover `X` and `Z`. -/
theorem luv_fwd_algebra (X Y Z ur vr L u v a d Xc : ℝ)
    (hL : L ≠ 0) (hX : X ≠ 0) (hY : Y ≠ 0) (hds : X + 15 * Y + 3 * Z ≠ 0)
    (hu : u = 13 * L * ((4 * X / (X + 15 * Y + 3 * Z)) - ur))
    (hv : v = 13 * L * ((9 * Y / (X + 15 * Y + 3 * Z)) - vr))
    (ha : a = 1 / 3 * ((52 * L / (u + 13 * L * ur)) - 1))
    (hd : d = Y * (39 * L / (v + 13 * L * vr) - 5))
    (hXc : Xc = (d - (-5 * Y)) / (a - (-(1 : ℝ) / 3))) :
    Xc = X ∧ Xc * a + (-5 * Y) = Z := by
  have hs_eq : u + 13 * L * ur = 52 * L * X / (X + 15 * Y + 3 * Z) := by
    rw [hu]
    ring
  have ht_eq : v + 13 * L * vr = 117 * L * Y / (X + 15 * Y + 3 * Z) := by
    rw [hv]
    ring
  have hnum : d - (-5 * Y) = (X + 15 * Y + 3 * Z) / 3 := by
    rw [hd, ht_eq]
    field_simp
    ring
  have hden : a - (-(1 : ℝ) / 3) = (X + 15 * Y + 3 * Z) / (3 * X) := by
    rw [ha, hs_eq]
    field_simp
    ring
  have hXcX : Xc = X := by
    rw [hXc, hnum, hden]
    rw [div_div_eq_mul_div]
    field_simp
    ring
  refine ⟨hXcX, ?_⟩
  rw [hXcX, ha, hs_eq]
  field_simp
  ring

/-- Algebraic core of the inverse-then-forward Luv round trip: the forward
`u`, `v` formulas applied to the inverse's outputs reproduce `u` and `v`. -/
theorem luv_inv_algebra (L u v ur vr Y a d Xc Zc : ℝ)
    (hL : L ≠ 0) (hY : Y ≠ 0)
    (hs : u + 13 * L * ur ≠ 0) (ht : v + 13 * L * vr ≠ 0)
    (ha : a = 1 / 3 * ((52 * L / (u + 13 * L * ur)) - 1))
    (hd : d = Y * (39 * L / (v + 13 * L * vr) - 5))
    (hXc : Xc = (d - (-5 * Y)) / (a - (-(1 : ℝ) / 3)))
    (hZc : Zc = Xc * a + (-5 * Y)) :
    13 * L * ((4 * Xc / (Xc + 15 * Y + 3 * Zc)) - ur) = u ∧
    13 * L * ((9 * Y / (Xc + 15 * Y + 3 * Zc)) - vr) = v := by
  have hXc' : Xc =
      9 * Y * (u + 13 * L * ur) / (4 * (v + 13 * L * vr)) := by
    rw [hXc, hd, ha,
      show Y * (39 * L / (v + 13 * L * vr) - 5) - (-5 * Y) =
        39 * L * Y / (v + 13 * L * vr) from by ring,
      show 1 / 3 * ((52 * L / (u + 13 * L * ur)) - 1) - (-(1 : ℝ) / 3) =
        52 * L / (3 * (u + 13 * L * ur)) from by
          rw [eq_div_iff (mul_ne_zero three_ne_zero hs)]
          field_simp
          ring,
      div_div_eq_mul_div]
    field_simp
    ring
  have hZc' : Zc =
      3 * Y * (52 * L - (u + 13 * L * ur)) / (4 * (v + 13 * L * vr)) -
        5 * Y := by
    rw [hZc, hXc', ha]
    field_simp
    ring
  have hsum : Xc + 15 * Y + 3 * Zc = 117 * L * Y / (v + 13 * L * vr) := by
    rw [hXc', hZc']
    field_simp
    ring
  constructor
  · rw [hsum, hXc',
      show 4 * (9 * Y * (u + 13 * L * ur) / (4 * (v + 13 * L * vr))) /
          (117 * L * Y / (v + 13 * L * vr)) =
        (u + 13 * L * ur) / (13 * L) from by
          field_simp
          ring]
    field_simp
  · rw [hsum,
      show 9 * Y / (117 * L * Y / (v + 13 * L * vr)) =
        (v + 13 * L * vr) / (13 * L) from by
          field_simp
          ring]
    field_simp

/-- Forward-then-inverse Lab round trip, for any reference white with
nonzero tristimulus components. -/
theorem Lab_round_trip_fwd (ill : ℝ × ℝ) (XYZ : ℝ × ℝ × ℝ)
    (hXr : (xy_to_XYZ ill).1 ≠ 0) (hYr : (xy_to_XYZ ill).2.1 ≠ 0)
    (hZr : (xy_to_XYZ ill).2.2 ≠ 0) :
    Lab_to_XYZ (XYZ_to_Lab XYZ ill) ill = XYZ := by
  obtain ⟨X, Y, Z⟩ := XYZ
  rw [XYZ_to_Lab_eval X Y Z ill _ _ _ rfl rfl rfl,
    Lab_to_XYZ_eval _ _ _ ill _ _ _ rfl rfl rfl, lab_yr_eq]
  set Fx := lab_f (X / (xy_to_XYZ ill).1) with hFx
  set Fy := lab_f (Y / (xy_to_XYZ ill).2.1) with hFy
  set Fz := lab_f (Z / (xy_to_XYZ ill).2.2) with hFz
  simp only [Prod.mk.injEq]
  refine ⟨?_, ?_, ?_⟩
  · rw [show 500 * (Fx - Fy) / 500 + (116 * Fy - 16 + 16) / 116 = Fx from
      by ring, hFx, lab_f_inv_lab_f]
    exact div_mul_cancel₀ X hXr
  · rw [hFy, ← luv_L_eq_lab_f, luv_L_inv_luv_L]
    exact div_mul_cancel₀ Y hYr
  · rw [show (116 * Fy - 16 + 16) / 116 - 200 * (Fy - Fz) / 200 = Fz from
      by ring, hFz, lab_f_inv_lab_f]
    exact div_mul_cancel₀ Z hZr

/-- Inverse-then-forward Lab round trip, for any Lab triple and any
reference white with nonzero tristimulus components. -/
theorem Lab_round_trip_inv (ill : ℝ × ℝ) (Lab : ℝ × ℝ × ℝ)
    (hXr : (xy_to_XYZ ill).1 ≠ 0) (hYr : (xy_to_XYZ ill).2.1 ≠ 0)
    (hZr : (xy_to_XYZ ill).2.2 ≠ 0) :
    XYZ_to_Lab (Lab_to_XYZ Lab ill) ill = Lab := by
  obtain ⟨L, a, b⟩ := Lab
  rw [Lab_to_XYZ_eval L a b ill _ _ _ rfl rfl rfl, lab_yr_eq,
    XYZ_to_Lab_eval _ _ _ ill _ _ _ rfl rfl rfl,
    mul_div_cancel_right₀ _ hXr, mul_div_cancel_right₀ _ hYr,
    mul_div_cancel_right₀ _ hZr, lab_f_lab_f_inv, lab_f_lab_f_inv]
  have hfy : lab_f (luv_L_inv L) = (L + 16) / 116 := by
    have h := luv_L_luv_L_inv L
    rw [luv_L_eq_lab_f] at h
    linarith
  rw [hfy]
  simp only [Prod.mk.injEq]
  refine ⟨by ring, by ring, by ring⟩

/-- Forward-then-inverse Luv round trip: positive `X` and `Y`, nonnegative
`Z`, positive reference white. -/
theorem Luv_round_trip_fwd (ill : ℝ × ℝ) (XYZ : ℝ × ℝ × ℝ)
    (hYr : 0 < (xy_to_XYZ ill).2.1)
    (hX : 0 < XYZ.1) (hY : 0 < XYZ.2.1) (hZ : 0 ≤ XYZ.2.2) :
    Luv_to_XYZ (XYZ_to_Luv XYZ ill) ill = XYZ := by
  obtain ⟨X, Y, Z⟩ := XYZ
  have hX' : (0 : ℝ) < X := hX
  have hY' : (0 : ℝ) < Y := hY
  have hZ' : (0 : ℝ) ≤ Z := hZ
  have hYr1 : (xy_to_XYZ ill).2.1 = 1 := xy_to_XYZ_snd ill (ne_of_gt hYr)
  rw [XYZ_to_Luv_eval X Y Z ill _ rfl,
    Luv_to_XYZ_eval _ _ _ ill _ _ _ rfl rfl rfl, luv_L_inv_luv_L, hYr1]
  simp only [div_one]
  have hL : luv_L Y ≠ 0 := ne_of_gt (luv_L_pos hY')
  have hds : X + 15 * Y + 3 * Z ≠ 0 := ne_of_gt (by linarith)
  simp only [Prod.mk.injEq]
  have halg := luv_fwd_algebra X Y Z
    (4 * (xy_to_XYZ ill).1 /
      ((xy_to_XYZ ill).1 + 15 * 1 + 3 * (xy_to_XYZ ill).2.2))
    (9 * 1 /
      ((xy_to_XYZ ill).1 + 15 * 1 + 3 * (xy_to_XYZ ill).2.2))
    (luv_L Y) _ _ _ _ _ hL (ne_of_gt hX') (ne_of_gt hY') hds
    rfl rfl rfl rfl rfl
  exact ⟨halg.1, trivial, halg.2⟩

/-- Inverse-then-forward Luv round trip: nonzero `L` and nonvanishing
recovered chromaticity denominators, positive reference white `y`. -/
theorem Luv_round_trip_inv (ill : ℝ × ℝ) (Luv : ℝ × ℝ × ℝ)
    (hYr : 0 < (xy_to_XYZ ill).2.1) (hL : Luv.1 ≠ 0)
    (hu : Luv.2.1 + 13 * Luv.1 * (4 * (xy_to_XYZ ill).1 /
      ((xy_to_XYZ ill).1 + 15 * (xy_to_XYZ ill).2.1 +
       3 * (xy_to_XYZ ill).2.2)) ≠ 0)
    (hv : Luv.2.2 + 13 * Luv.1 * (9 * (xy_to_XYZ ill).2.1 /
      ((xy_to_XYZ ill).1 + 15 * (xy_to_XYZ ill).2.1 +
       3 * (xy_to_XYZ ill).2.2)) ≠ 0) :
    XYZ_to_Luv (Luv_to_XYZ Luv ill) ill = Luv := by
  obtain ⟨L, u, v⟩ := Luv
  have hL' : L ≠ 0 := hL
  have hYr1 : (xy_to_XYZ ill).2.1 = 1 := xy_to_XYZ_snd ill (ne_of_gt hYr)
  have hu' : u + 13 * L * (4 * (xy_to_XYZ ill).1 /
      ((xy_to_XYZ ill).1 + 15 * 1 + 3 * (xy_to_XYZ ill).2.2)) ≠ 0 := by
    rw [← hYr1]
    exact hu
  have hv' : v + 13 * L * (9 * 1 /
      ((xy_to_XYZ ill).1 + 15 * 1 + 3 * (xy_to_XYZ ill).2.2)) ≠ 0 := by
    rw [← hYr1]
    exact hv
  rw [Luv_to_XYZ_eval L u v ill _ _ _ rfl rfl rfl,
    XYZ_to_Luv_eval _ _ _ ill _ rfl, hYr1]
  simp only [div_one]
  rw [luv_L_luv_L_inv]
  have hY0 : luv_L_inv L ≠ 0 := luv_L_inv_ne_zero hL'
  simp only [Prod.mk.injEq]
  have halg := luv_inv_algebra L u v
    (4 * (xy_to_XYZ ill).1 /
      ((xy_to_XYZ ill).1 + 15 * 1 + 3 * (xy_to_XYZ ill).2.2))
    (9 * 1 /
      ((xy_to_XYZ ill).1 + 15 * 1 + 3 * (xy_to_XYZ ill).2.2))
    (luv_L_inv L) _ _ _ _ hL' hY0 hu' hv' rfl rfl rfl rfl
  exact ⟨trivial, halg.1, halg.2⟩

/-- C6 counterexample: the Luv round trip fails on a nonnegative XYZ vector
with `X = Y = 0`: `(0, 0, 1)` maps forward to Luv `(0, 0, 0)`, which the
inverse sends to `(0, 0, 0)`, losing `Z`. -/
theorem Luv_round_trip_fails_at_zero_X :
    Luv_to_XYZ (XYZ_to_Luv (0, 0, 1) (0.25, 0.25)) (0.25, 0.25) ≠
      (0, 0, 1) := by
  norm_num [XYZ_to_Luv, Luv_to_XYZ, xy_to_XYZ, xyY_to_XYZ, CIE_E, CIE_K,
    Prod.ext_iff]

/-- C6 (amended): with a physically valid reference illuminant (positive
reference tristimulus values), XYZ/Lab round-trips exactly in both
directions, for every XYZ with nonnegative components and for every Lab
vector; XYZ/Luv round-trips forward-then-inverse when additionally `X` and
`Y` are strictly positive, and inverse-then-forward when `L` is nonzero and
the two recovered chromaticity denominators do not vanish.  All equalities
are exact, hence within tolerance 1e-6, and they hold across both piecewise
branches since the hypotheses do not constrain the branch taken. -/
theorem Luv_Lab_round_trips (ill : ℝ × ℝ)
    (hXr : 0 < (xy_to_XYZ ill).1) (hYr : 0 < (xy_to_XYZ ill).2.1)
    (hZr : 0 < (xy_to_XYZ ill).2.2) :
    (∀ XYZ : ℝ × ℝ × ℝ, 0 ≤ XYZ.1 → 0 ≤ XYZ.2.1 → 0 ≤ XYZ.2.2 →
      Lab_to_XYZ (XYZ_to_Lab XYZ ill) ill = XYZ) ∧
    (∀ Lab : ℝ × ℝ × ℝ, XYZ_to_Lab (Lab_to_XYZ Lab ill) ill = Lab) ∧
    (∀ XYZ : ℝ × ℝ × ℝ, 0 < XYZ.1 → 0 < XYZ.2.1 → 0 ≤ XYZ.2.2 →
      Luv_to_XYZ (XYZ_to_Luv XYZ ill) ill = XYZ) ∧
    (∀ Luv : ℝ × ℝ × ℝ, Luv.1 ≠ 0 →
      Luv.2.1 + 13 * Luv.1 * (4 * (xy_to_XYZ ill).1 /
        ((xy_to_XYZ ill).1 + 15 * (xy_to_XYZ ill).2.1 +
         3 * (xy_to_XYZ ill).2.2)) ≠ 0 →
      Luv.2.2 + 13 * Luv.1 * (9 * (xy_to_XYZ ill).2.1 /
        ((xy_to_XYZ ill).1 + 15 * (xy_to_XYZ ill).2.1 +
         3 * (xy_to_XYZ ill).2.2)) ≠ 0 →
      XYZ_to_Luv (Luv_to_XYZ Luv ill) ill = Luv) :=
  ⟨fun XYZ _ _ _ =>
    Lab_round_trip_fwd ill XYZ (ne_of_gt hXr) (ne_of_gt hYr) (ne_of_gt hZr),
   fun Lab =>
    Lab_round_trip_inv ill Lab (ne_of_gt hXr) (ne_of_gt hYr) (ne_of_gt hZr),
   fun XYZ hX hY hZ => Luv_round_trip_fwd ill XYZ hYr hX hY hZ,
   fun Luv hL hu hv => Luv_round_trip_inv ill Luv hYr hL hu hv⟩

/-- Witness for C6 at the illuminant `(0.25, 0.25)` (reference white
`(1, 1, 2)`) and concrete vectors on both sides of the thresholds. -/
theorem Luv_Lab_round_trips_witness :
    (0 < (xy_to_XYZ (0.25, 0.25)).1 ∧ 0 < (xy_to_XYZ (0.25, 0.25)).2.1 ∧
     0 < (xy_to_XYZ (0.25, 0.25)).2.2) ∧
    Luv_to_XYZ (XYZ_to_Luv (1, 1, 1) (0.25, 0.25)) (0.25, 0.25) =
      (1, 1, 1) ∧
    Lab_to_XYZ (XYZ_to_Lab (2, 1, 0) (0.25, 0.25)) (0.25, 0.25) =
      (2, 1, 0) := by
  have h1 : (0 : ℝ) < (xy_to_XYZ (0.25, 0.25)).1 := by
    norm_num [xy_to_XYZ, xyY_to_XYZ]
  have h2 : (0 : ℝ) < (xy_to_XYZ (0.25, 0.25)).2.1 := by
    norm_num [xy_to_XYZ, xyY_to_XYZ]
  have h3 : (0 : ℝ) < (xy_to_XYZ (0.25, 0.25)).2.2 := by
    norm_num [xy_to_XYZ, xyY_to_XYZ]
  refine ⟨⟨h1, h2, h3⟩, ?_, ?_⟩
  · exact (Luv_Lab_round_trips (0.25, 0.25) h1 h2 h3).2.2.1 (1, 1, 1)
      (by norm_num) (by norm_num) (by norm_num)
  · exact (Luv_Lab_round_trips (0.25, 0.25) h1 h2 h3).1 (2, 1, 0)
      (by norm_num) (by norm_num) (by norm_num)

end Colour
